import Mathlib

set_option linter.unusedVariables false

namespace Cweb

/-!
Shallow embedding of the cweb repository's Python scripts that the
verification below is about.  Text is modelled as `List Char`, Python's
slice `text[a:b]` as `slice`, Python's `str.rfind` as `pyRfind`, and the
`while` loop of `DocumentChunker.chunk_text` as a fuel-indexed loop
`chunkLoop` over an explicit state (`ChunkState`), so that
non-termination of the Python loop is expressed as the loop returning
`none` for every amount of fuel.
-/

/-- Python list slice `text[a:b]` (with clamping) on a list of characters. -/
def slice (text : List Char) (a b : Nat) : List Char :=
  (text.drop a).take (b - a)

/-- Greatest `i < n` satisfying `P`, or `none`. -/
def lastIn (P : Nat → Bool) (n : Nat) : Option Nat :=
  ((List.range n).filter P).getLast?

/-- Model of Python `text.rfind(pat, s, f)`: the greatest index `i` with
`s ≤ i` such that `pat` occurs in `text` at `i` and the occurrence lies
wholly below `f`; `none` models Python's return value `-1`. -/
def pyRfind (text pat : List Char) (s f : Nat) : Option Nat :=
  lastIn (fun i => decide (s ≤ i) && pat.isPrefixOf (text.drop i) && decide (i + pat.length ≤ f)) f

/-- Python `max` over `rfind` results, where `none` stands for `-1`. -/
def maxOpt : Option Nat → Option Nat → Option Nat
  | none, b => b
  | some x, none => some x
  | some x, some y => some (max x y)

/-- The newline character. -/
def nlChar : Char := Char.ofNat 10

/-- The paragraph separator searched for by the chunker. -/
def parBreak : List Char := [nlChar, nlChar]

/-- Sentence separator: full stop followed by a space. -/
def dotBreak : List Char := ['.', ' ']

/-- Sentence separator: exclamation mark followed by a space. -/
def bangBreak : List Char := ['!', ' ']

/-- Sentence separator: question mark followed by a space. -/
def questionBreak : List Char := ['?', ' ']

/-- The sentence-break part of the chunk-end computation: Python's
`sentence_break = max(text.rfind('. ', start, end), text.rfind('! ', start, end),
text.rfind('? ', start, end))` followed by the midpoint test. -/
def sentenceEnd (text : List Char) (chunk_size start e0 : Nat) : Nat :=
  match maxOpt (maxOpt (pyRfind text dotBreak start e0) (pyRfind text bangBreak start e0))
      (pyRfind text questionBreak start e0) with
  | some sb => if start + chunk_size / 2 < sb then sb + 2 else e0
  | none => e0

/-- The end position computed by one iteration of the `while` loop of
`DocumentChunker.chunk_text` (identical in `extract_arguments_from_pdf.py`,
`graphrag_argument_extractor.py` and `simple_argument_extractor.py`):
start from `min(start + chunk_size, text_length)`, and when that is short
of the text's end prefer a paragraph break past the window's midpoint,
then a sentence break past the midpoint. -/
def computeEnd (text : List Char) (chunk_size start : Nat) : Nat :=
  if min (start + chunk_size) text.length < text.length then
    match pyRfind text parBreak start (min (start + chunk_size) text.length) with
    | some pb => if start + chunk_size / 2 < pb then pb + 2
      else sentenceEnd text chunk_size start (min (start + chunk_size) text.length)
    | none => sentenceEnd text chunk_size start (min (start + chunk_size) text.length)
  else min (start + chunk_size) text.length

/-- State of the chunking loop: the cursor `start` and the accumulated
list of chunks. -/
structure ChunkState where
  start : Nat
  chunks : List (List Char)
deriving DecidableEq

/-- One iteration of the `while` loop of `DocumentChunker.chunk_text`:
append `text[start:end]`, move `start` to `max(start, end - overlap)`,
and force `start = end` if no progress was made. -/
def chunkStep (text : List Char) (chunk_size overlap : Nat) (s : ChunkState) : ChunkState :=
  let e := computeEnd text chunk_size s.start
  let chunk := slice text s.start e
  let start1 := max s.start (e - overlap)
  let start2 := if e ≤ start1 then e else start1
  ⟨start2, s.chunks ++ [chunk]⟩

/-- The `while start < text_length` loop of `chunk_text`, indexed by fuel;
`none` means the given amount of fuel did not suffice. -/
def chunkLoop (text : List Char) (chunk_size overlap : Nat) : Nat → ChunkState → Option (List (List Char))
  | fuel, s =>
    if s.start < text.length then
      match fuel with
      | 0 => none
      | fuel' + 1 => chunkLoop text chunk_size overlap fuel' (chunkStep text chunk_size overlap s)
    else some s.chunks

/-- `DocumentChunker.chunk_text(text, chunk_size, overlap)`, fuel-indexed. -/
def chunk_text (fuel : Nat) (text : List Char) (chunk_size overlap : Nat) : Option (List (List Char)) :=
  if text.isEmpty then some [] else chunkLoop text chunk_size overlap fuel ⟨0, []⟩

/-- Default `chunk_size` of the copy in `extract_arguments_from_pdf.py`. -/
def extractDefaultChunkSize : Nat := 4000

/-- Default `chunk_size` of the copy in `graphrag_argument_extractor.py`. -/
def graphragDefaultChunkSize : Nat := 1000

/-- Default `chunk_size` of the copy in `simple_argument_extractor.py`. -/
def simpleDefaultChunkSize : Nat := 3000

/-- Default `overlap`, identical in all three copies. -/
def defaultOverlap : Nat := 200

/-- The copy of `chunk_text` in `extract_arguments_from_pdf.py` (the body
is verbatim identical in all three scripts; only the defaults differ). -/
def chunk_text_extract (fuel : Nat) (text : List Char) (chunk_size overlap : Nat) : Option (List (List Char)) :=
  chunk_text fuel text chunk_size overlap

/-- The copy of `chunk_text` in `graphrag_argument_extractor.py`. -/
def chunk_text_graphrag (fuel : Nat) (text : List Char) (chunk_size overlap : Nat) : Option (List (List Char)) :=
  chunk_text fuel text chunk_size overlap

/-- The copy of `chunk_text` in `simple_argument_extractor.py`. -/
def chunk_text_simple (fuel : Nat) (text : List Char) (chunk_size overlap : Nat) : Option (List (List Char)) :=
  chunk_text fuel text chunk_size overlap

/-! Basic facts about `lastIn`, `pyRfind` and `computeEnd`. -/

theorem lastIn_spec {P : Nat → Bool} {n j : Nat} (h : lastIn P n = some j) :
    j < n ∧ P j = true := by
  have hm : j ∈ (List.range n).filter P :=
    List.mem_of_mem_getLast? (by rw [lastIn] at h; simp [h])
  rcases List.mem_filter.mp hm with ⟨hr, hp⟩
  exact ⟨List.mem_range.mp hr, hp⟩

theorem pyRfind_spec {text pat : List Char} {s f j : Nat} (h : pyRfind text pat s f = some j) :
    s ≤ j ∧ pat.isPrefixOf (text.drop j) = true ∧ j + pat.length ≤ f := by
  rcases lastIn_spec h with ⟨-, hp⟩
  simp only [Bool.and_eq_true, decide_eq_true_eq] at hp
  exact ⟨hp.1.1, hp.1.2, hp.2⟩

theorem maxOpt_bound {Q : Nat → Prop} {a b : Option Nat}
    (hmax : ∀ x y, Q x → Q y → Q (max x y))
    (ha : ∀ x, a = some x → Q x) (hb : ∀ y, b = some y → Q y) :
    ∀ j, maxOpt a b = some j → Q j := by
  intro j hj
  cases a with
  | none => cases b with
    | none => simp [maxOpt] at hj
    | some y => simp [maxOpt] at hj; exact hj ▸ hb y rfl
  | some x => cases b with
    | none => simp [maxOpt] at hj; exact hj ▸ ha x rfl
    | some y => simp [maxOpt] at hj; exact hj ▸ hmax x y (ha x rfl) (hb y rfl)

/-- The maximum of the three sentence-break searches is itself a position
of one of the separators, within the window. -/
theorem sentenceMax_bounds {text : List Char} {start e0 sb : Nat}
    (h : maxOpt (maxOpt (pyRfind text dotBreak start e0) (pyRfind text bangBreak start e0))
      (pyRfind text questionBreak start e0) = some sb) :
    start ≤ sb ∧ sb + 2 ≤ e0 := by
  have hmax : ∀ x y, (start ≤ x ∧ x + 2 ≤ e0) → (start ≤ y ∧ y + 2 ≤ e0) →
      (start ≤ max x y ∧ max x y + 2 ≤ e0) := by
    intro x y hx hy
    rcases Nat.le_total x y with hxy | hxy
    · rw [Nat.max_eq_right hxy]; exact hy
    · rw [Nat.max_eq_left hxy]; exact hx
  refine maxOpt_bound (Q := fun j => start ≤ j ∧ j + 2 ≤ e0) hmax ?_ ?_ sb h
  · intro x hx
    refine maxOpt_bound (Q := fun j => start ≤ j ∧ j + 2 ≤ e0) hmax ?_ ?_ x hx
    · intro x hx
      rcases pyRfind_spec hx with ⟨h1, -, h2⟩
      exact ⟨h1, by simpa [dotBreak] using h2⟩
    · intro y hy
      rcases pyRfind_spec hy with ⟨h1, -, h2⟩
      exact ⟨h1, by simpa [bangBreak] using h2⟩
  · intro y hy
    rcases pyRfind_spec hy with ⟨h1, -, h2⟩
    exact ⟨h1, by simpa [questionBreak] using h2⟩

theorem sentenceEnd_bounds {text : List Char} {cs start e0 : Nat} (h0 : start < e0) :
    start < sentenceEnd text cs start e0 ∧ sentenceEnd text cs start e0 ≤ e0 := by
  unfold sentenceEnd
  cases hs : maxOpt (maxOpt (pyRfind text dotBreak start e0) (pyRfind text bangBreak start e0))
      (pyRfind text questionBreak start e0) with
  | none => exact ⟨h0, le_refl _⟩
  | some sb =>
    rcases sentenceMax_bounds hs with ⟨h1, h2⟩
    dsimp only
    split_ifs with hmid
    · exact ⟨by omega, by omega⟩
    · exact ⟨h0, le_refl _⟩

/-- Bounds on `computeEnd`: the chunk end is strictly past `start`, at most
the text length, and at most `start + chunk_size`. -/
theorem computeEnd_bounds {text : List Char} {cs start : Nat}
    (hstart : start < text.length) (hcs : 1 ≤ cs) :
    start < computeEnd text cs start ∧ computeEnd text cs start ≤ text.length ∧
      computeEnd text cs start ≤ start + cs := by
  have he0lo : start < min (start + cs) text.length := lt_min (by omega) hstart
  have he0hi : min (start + cs) text.length ≤ text.length := min_le_right _ _
  have he0cs : min (start + cs) text.length ≤ start + cs := min_le_left _ _
  unfold computeEnd
  by_cases hlt : min (start + cs) text.length < text.length
  · rw [if_pos hlt]
    cases hpar : pyRfind text parBreak start (min (start + cs) text.length) with
    | some pb =>
      rcases pyRfind_spec hpar with ⟨hpb1, -, hpb2⟩
      have hpb2' : pb + 2 ≤ min (start + cs) text.length := by simpa [parBreak] using hpb2
      dsimp only
      split_ifs with hmid
      · exact ⟨by omega, by omega, by omega⟩
      · rcases @sentenceEnd_bounds text cs start (min (start + cs) text.length) he0lo with ⟨h1, h2⟩
        exact ⟨h1, by omega, by omega⟩
    | none =>
      rcases @sentenceEnd_bounds text cs start (min (start + cs) text.length) he0lo with ⟨h1, h2⟩
      dsimp only
      exact ⟨h1, by omega, by omega⟩
  · rw [if_neg hlt]
    exact ⟨he0lo, he0hi, he0cs⟩

/-- When the window stops short of the text, the computed end stays short of
the text as well. -/
theorem computeEnd_lt_length {text : List Char} {cs start : Nat}
    (hstart : start < text.length) (hcs : 1 ≤ cs)
    (hlt : min (start + cs) text.length < text.length) :
    computeEnd text cs start < text.length := by
  have he0lo : start < min (start + cs) text.length := lt_min (by omega) hstart
  unfold computeEnd
  rw [if_pos hlt]
  cases hpar : pyRfind text parBreak start (min (start + cs) text.length) with
  | some pb =>
    rcases pyRfind_spec hpar with ⟨-, -, hpb2⟩
    have hpb2' : pb + 2 ≤ min (start + cs) text.length := by simpa [parBreak] using hpb2
    dsimp only
    split_ifs with hmid
    · omega
    · rcases @sentenceEnd_bounds text cs start (min (start + cs) text.length) he0lo with ⟨-, h2⟩
      omega
  | none =>
    rcases @sentenceEnd_bounds text cs start (min (start + cs) text.length) he0lo with ⟨-, h2⟩
    dsimp only
    omega

/-- When the window covers the rest of the text, no boundary seeking happens
and the end is the text length. -/
theorem computeEnd_eq_length_of_ge {text : List Char} {cs start : Nat}
    (h : text.length ≤ start + cs) : computeEnd text cs start = text.length := by
  unfold computeEnd
  rw [if_neg (by omega)]
  omega

/-- If the computed end reached the text length then the window covered the
rest of the text. -/
theorem length_le_of_computeEnd_eq {text : List Char} {cs start : Nat}
    (hstart : start < text.length) (hcs : 1 ≤ cs)
    (h : computeEnd text cs start = text.length) : text.length ≤ start + cs := by
  by_cases hlt : min (start + cs) text.length < text.length
  · exact absurd h (by have := computeEnd_lt_length hstart hcs hlt; omega)
  · omega

/-- The chunks field of the loop state after one iteration: the slice
`text[start:end]` is appended. -/
theorem chunkStep_chunks (text : List Char) (cs ov : Nat) (s : ChunkState) :
    (chunkStep text cs ov s).chunks
      = s.chunks ++ [slice text s.start (computeEnd text cs s.start)] := rfl

/-- With a positive overlap the forced-break guard never fires, and the new
cursor is `max start (end - overlap)`, still strictly below the text end. -/
theorem chunkStep_start_eq {text : List Char} {cs ov : Nat} {s : ChunkState}
    (h : s.start < text.length) (hcs : 1 ≤ cs) (hov : 1 ≤ ov) :
    (chunkStep text cs ov s).start = max s.start (computeEnd text cs s.start - ov) ∧
      max s.start (computeEnd text cs s.start - ov) < computeEnd text cs s.start ∧
      (chunkStep text cs ov s).start < text.length := by
  rcases computeEnd_bounds h hcs with ⟨h1, h2, h3⟩
  have hlt : max s.start (computeEnd text cs s.start - ov) < computeEnd text cs s.start := by
    omega
  constructor
  · simp only [chunkStep]
    rw [if_neg (by omega)]
  · exact ⟨hlt, by simp only [chunkStep]; rw [if_neg (by omega)]; omega⟩

/-- With positive chunk size and overlap, the guard `start < text_length`
holds forever, so the loop runs out of any amount of fuel. -/
theorem chunkLoop_none {text : List Char} {cs ov : Nat} (hcs : 1 ≤ cs) (hov : 1 ≤ ov) :
    ∀ fuel (s : ChunkState), s.start < text.length → chunkLoop text cs ov fuel s = none := by
  intro fuel
  induction fuel with
  | zero =>
    intro s h
    unfold chunkLoop
    rw [if_pos h]
  | succ f ih =>
    intro s h
    unfold chunkLoop
    rw [if_pos h]
    exact ih _ (chunkStep_start_eq h hcs hov).2.2

/-! Spec-side description of the boundary-seeking chunk end, written from the
specification sentence, to be compared with `computeEnd`. -/

/-- The pattern `pat` occurs in `text` at position `i`. -/
def occursAt (text pat : List Char) (i : Nat) : Bool := pat.isPrefixOf (text.drop i)

/-- The last position of a whole occurrence of `pat` inside the window
`[s, w)`. -/
def lastBreakInWindow (text pat : List Char) (s w : Nat) : Option Nat :=
  lastIn (fun i => decide (s ≤ i) && occursAt text pat i && decide (i + pat.length ≤ w)) w

/-- The last position, past the midpoint `mid`, of a sentence break (one of
`'. '`, `'! '`, `'? '`) wholly inside the window `[s, w)`. -/
def lastSentenceBreakPastMid (text : List Char) (s w mid : Nat) : Option Nat :=
  lastIn (fun i =>
    ((decide (s ≤ i) && occursAt text dotBreak i && decide (i + dotBreak.length ≤ w)
      || decide (s ≤ i) && occursAt text bangBreak i && decide (i + bangBreak.length ≤ w))
      || decide (s ≤ i) && occursAt text questionBreak i && decide (i + questionBreak.length ≤ w))
    && decide (mid < i)) w

/-- Modelled from the spec sentence for the chunk end: when the chunk does
not reach the end of the text, take the position just after the last
paragraph break in the window `[start, start + chunk_size)` if that break
lies after `start + chunk_size // 2`, otherwise just after the last sentence
break after that midpoint, otherwise exactly `start + chunk_size`; when the
chunk reaches the end of the text, the end is the text length. -/
def specEnd (text : List Char) (chunk_size start : Nat) : Nat :=
  if start + chunk_size < text.length then
    match lastBreakInWindow text parBreak start (start + chunk_size) with
    | some pb =>
      if start + chunk_size / 2 < pb then pb + 2
      else match lastSentenceBreakPastMid text start (start + chunk_size) (start + chunk_size / 2) with
        | some sb => sb + 2
        | none => start + chunk_size
    | none =>
      match lastSentenceBreakPastMid text start (start + chunk_size) (start + chunk_size / 2) with
      | some sb => sb + 2
      | none => start + chunk_size
  else text.length

theorem lastIn_zero (P : Nat → Bool) : lastIn P 0 = none := rfl

theorem lastIn_succ (P : Nat → Bool) (n : Nat) :
    lastIn P (n + 1) = if P n then some n else lastIn P n := by
  unfold lastIn
  rw [List.range_succ, List.filter_append]
  by_cases h : P n
  · simp [List.filter, h]
  · simp [List.filter, h]

theorem lastIn_none_of {P : Nat → Bool} {n : Nat} (h : ∀ i, i < n → P i = false) :
    lastIn P n = none := by
  unfold lastIn
  have : (List.range n).filter P = [] :=
    List.filter_eq_nil_iff.mpr (fun a ha => by simp [h a (List.mem_range.mp ha)])
  rw [this]
  rfl

/-- The last position satisfying a disjunction is the Python `max` of the
last positions satisfying each disjunct. -/
theorem lastIn_or (P Q : Nat → Bool) (n : Nat) :
    lastIn (fun i => P i || Q i) n = maxOpt (lastIn P n) (lastIn Q n) := by
  induction n with
  | zero => rfl
  | succ n ih =>
    rw [lastIn_succ, lastIn_succ, lastIn_succ, ih]
    cases hp : P n with
    | true =>
      cases hq : Q n with
      | true => simp [hp, hq, maxOpt]
      | false =>
        simp only [hp, hq, Bool.true_or, if_true]
        cases hQ : lastIn Q n with
        | none => simp [maxOpt]
        | some k =>
          have hk := (lastIn_spec hQ).1
          simp [maxOpt, Nat.max_eq_left (Nat.le_of_lt hk)]
    | false =>
      cases hq : Q n with
      | true =>
        simp only [hp, hq, Bool.false_or, if_true]
        cases hP : lastIn P n with
        | none => simp [maxOpt]
        | some j =>
          have hj := (lastIn_spec hP).1
          simp [maxOpt, Nat.max_eq_right (Nat.le_of_lt hj)]
      | false => simp [hp, hq]

/-- Filtering the last position by a strict lower bound is selecting the
overall last position when it clears the bound. -/
theorem lastIn_and_gt (P : Nat → Bool) (m n : Nat) :
    lastIn (fun i => P i && decide (m < i)) n
      = (lastIn P n).bind (fun j => if m < j then some j else none) := by
  induction n with
  | zero => rfl
  | succ n ih =>
    rw [lastIn_succ, lastIn_succ]
    cases hp : P n with
    | false => simp [hp, ih]
    | true =>
      by_cases hm : m < n
      · simp [hp, hm]
      · have hnone : lastIn (fun i => P i && decide (m < i)) n = none := by
          apply lastIn_none_of
          intro i hi
          have hmi : ¬ (m < i) := by omega
          simp [hmi]
        simp [hp, hm, hnone]

theorem sentenceEnd_eq_spec (text : List Char) (cs start : Nat) :
    sentenceEnd text cs start (start + cs)
      = (match lastSentenceBreakPastMid text start (start + cs) (start + cs / 2) with
        | some sb => sb + 2
        | none => start + cs) := by
  unfold sentenceEnd lastSentenceBreakPastMid
  rw [lastIn_and_gt, lastIn_or, lastIn_or]
  have h1 : lastIn (fun i => decide (start ≤ i) && occursAt text dotBreak i
      && decide (i + dotBreak.length ≤ start + cs)) (start + cs)
      = pyRfind text dotBreak start (start + cs) := rfl
  have h2 : lastIn (fun i => decide (start ≤ i) && occursAt text bangBreak i
      && decide (i + bangBreak.length ≤ start + cs)) (start + cs)
      = pyRfind text bangBreak start (start + cs) := rfl
  have h3 : lastIn (fun i => decide (start ≤ i) && occursAt text questionBreak i
      && decide (i + questionBreak.length ≤ start + cs)) (start + cs)
      = pyRfind text questionBreak start (start + cs) := rfl
  rw [h1, h2, h3]
  cases hmx : maxOpt (maxOpt (pyRfind text dotBreak start (start + cs))
      (pyRfind text bangBreak start (start + cs)))
      (pyRfind text questionBreak start (start + cs)) with
  | none => rfl
  | some sb =>
    dsimp only [Option.bind_some]
    by_cases hmid : start + cs / 2 < sb
    · simp [hmid]
    · simp [hmid]

/-- Claim C2's core refinement: the chunk end computed by the code equals the
boundary-seeking end described by the specification. -/
theorem computeEnd_eq_specEnd (text : List Char) (cs start : Nat) :
    computeEnd text cs start = specEnd text cs start := by
  unfold computeEnd specEnd
  by_cases hlt : start + cs < text.length
  · have hm : min (start + cs) text.length = start + cs := by omega
    rw [if_pos (by omega), if_pos hlt, hm]
    have hpar : lastBreakInWindow text parBreak start (start + cs)
        = pyRfind text parBreak start (start + cs) := rfl
    rw [hpar]
    cases hp : pyRfind text parBreak start (start + cs) with
    | some pb =>
      dsimp only
      by_cases hmid : start + cs / 2 < pb
      · simp [hmid]
      · simp only [hmid, if_false]
        exact sentenceEnd_eq_spec text cs start
    | none =>
      dsimp only
      exact sentenceEnd_eq_spec text cs start
  · rw [if_neg hlt]
    have hm : min (start + cs) text.length = text.length := by omega
    rw [if_neg (by omega)]
    exact hm

/-! Helper computations on texts made of a single repeated letter: none of
the break patterns ever occurs in them. -/

theorem isPrefixOf_cons_replicate {c a : Char} {rest : List Char} {m : Nat}
    (h : (c == a) = false) :
    List.isPrefixOf (c :: rest) (List.replicate m a) = false := by
  cases m with
  | zero => rfl
  | succ m => simp [List.replicate_succ, List.isPrefixOf, h]

theorem pyRfind_cons_replicate {n s f m : Nat} {a c : Char} {rest : List Char}
    (h : (c == a) = false) :
    pyRfind (List.replicate n a) (c :: rest) s f = none := by
  unfold pyRfind
  apply lastIn_none_of
  intro i hi
  rw [List.drop_replicate]
  simp [isPrefixOf_cons_replicate h]

theorem computeEnd_replicate (n cs : Nat) :
    computeEnd (List.replicate n 'a') cs 0 = min cs n := by
  unfold computeEnd sentenceEnd
  simp only [parBreak, dotBreak, bangBreak, questionBreak]
  rw [pyRfind_cons_replicate (m := 0) (by decide), pyRfind_cons_replicate (m := 0) (by decide),
    pyRfind_cons_replicate (m := 0) (by decide), pyRfind_cons_replicate (m := 0) (by decide)]
  simp [maxOpt, List.length_replicate]

theorem chunkStep_replicate (cs ov : Nat) :
    (chunkStep (List.replicate 3500 'a') cs ov ⟨0, []⟩).chunks
      = [List.replicate (min cs 3500) 'a'] := by
  rw [chunkStep_chunks]
  rw [computeEnd_replicate]
  unfold slice
  rw [List.drop_replicate, List.take_replicate]
  simp only [Nat.sub_zero, List.nil_append, List.length_replicate]
  rw [show min (min cs 3500) (3500 - 0) = min cs 3500 from by omega]

/-! Claim theorems for the chunker. -/

/-- Claim C1: on every non-empty text, with any chunk size of at least one
character and any overlap of at least one character (in particular the
default `overlap=200`), `chunk_text` never terminates: the loop returns
`none` whatever fuel it is given, the cursor `start` stays strictly below
the text length at every iteration, the forced-break guard `start >= end`
never fires (`max start (end - overlap)` is always strictly below `end`),
and once the computed end reaches the text length the cursor becomes
stationary, so the loop appends the same final chunk forever. -/
theorem chunk_text_never_terminates (text : List Char) (cs ov : Nat)
    (htext : text ≠ []) (hcs : 1 ≤ cs) (hov : 1 ≤ ov) :
    (∀ fuel, chunk_text fuel text cs ov = none) ∧
    (∀ n, ((chunkStep text cs ov)^[n] ⟨0, []⟩).start < text.length) ∧
    (∀ s : ChunkState, s.start < text.length →
      max s.start (computeEnd text cs s.start - ov) < computeEnd text cs s.start) ∧
    (∀ s : ChunkState, s.start < text.length → computeEnd text cs s.start = text.length →
      (chunkStep text cs ov (chunkStep text cs ov s)).start = (chunkStep text cs ov s).start ∧
      (chunkStep text cs ov (chunkStep text cs ov s)).chunks
        = (chunkStep text cs ov s).chunks
            ++ [slice text (chunkStep text cs ov s).start text.length]) := by
  have hlen : 0 < text.length := List.length_pos.mpr htext
  refine ⟨?_, ?_, ?_, ?_⟩
  · intro fuel
    unfold chunk_text
    rw [if_neg (by simpa [List.isEmpty_iff] using htext)]
    exact chunkLoop_none hcs hov fuel _ (by simpa using hlen)
  · intro n
    induction n with
    | zero => simpa using hlen
    | succ n ih =>
      rw [Function.iterate_succ_apply']
      exact (chunkStep_start_eq ih hcs hov).2.2
  · intro s hs
    exact (chunkStep_start_eq hs hcs hov).2.1
  · intro s hs hE
    rcases chunkStep_start_eq hs hcs hov with ⟨heq, hlt', hlen'⟩
    have hLcs : text.length ≤ s.start + cs := length_le_of_computeEnd_eq hs hcs hE
    have hLu : text.length ≤ (chunkStep text cs ov s).start + cs := by
      rw [heq, hE]
      omega
    have hEu : computeEnd text cs (chunkStep text cs ov s).start = text.length :=
      computeEnd_eq_length_of_ge hLu
    rcases chunkStep_start_eq hlen' hcs hov with ⟨heq2, -, -⟩
    constructor
    · rw [heq2, hEu, heq, hE]
      omega
    · rw [chunkStep_chunks, hEu]

/-- Claim C2: each chunk appended by an iteration of `chunk_text` is the
contiguous slice `text[start:end]`, its length is at most `chunk_size`, the
end position is chosen exactly as the boundary-seeking description of the
specification states (`specEnd`), and on empty text `chunk_text` returns
the empty list. -/
theorem chunk_text_chunk_spec (text : List Char) (cs ov : Nat) (s : ChunkState)
    (hcs : 1 ≤ cs) :
    (∀ fuel, chunk_text fuel [] cs ov = some []) ∧
    (chunkStep text cs ov s).chunks
      = s.chunks ++ [slice text s.start (computeEnd text cs s.start)] ∧
    (s.start < text.length →
      (slice text s.start (computeEnd text cs s.start)).length ≤ cs) ∧
    computeEnd text cs s.start = specEnd text cs s.start := by
  refine ⟨fun fuel => rfl, chunkStep_chunks text cs ov s, ?_, computeEnd_eq_specEnd text cs s.start⟩
  intro hs
  rcases computeEnd_bounds hs hcs with ⟨-, -, h3⟩
  unfold slice
  rw [List.length_take, List.length_drop]
  omega

/-- Sample text used to instantiate the chunker theorems on concrete input. -/
def sampleText : List Char := ['a', 'b', '.', ' ', 'c', 'd', 'e', 'f', 'g']

theorem chunk_text_never_terminates_witness :
    chunk_text 5 ['a'] 1 1 = none :=
  (chunk_text_never_terminates ['a'] 1 1 (by decide) (by decide) (by decide)).1 5

theorem chunk_text_chunk_spec_witness :
    (chunkStep sampleText 4 1 ⟨0, []⟩).chunks
        = [slice sampleText 0 (computeEnd sampleText 4 0)] ∧
      (slice sampleText 0 (computeEnd sampleText 4 0)).length ≤ 4 ∧
      computeEnd sampleText 4 0 = specEnd sampleText 4 0 :=
  ⟨(chunk_text_chunk_spec sampleText 4 1 ⟨0, []⟩ (by decide)).2.1,
    (chunk_text_chunk_spec sampleText 4 1 ⟨0, []⟩ (by decide)).2.2.1 (by decide),
    (chunk_text_chunk_spec sampleText 4 1 ⟨0, []⟩ (by decide)).2.2.2⟩

/-- Claim C3: the three copies of `chunk_text` agree on every explicit
argument triple; their default chunk sizes are 4000, 1000 and 3000, so with
arguments left to defaults they do not compute the same chunking: on a
concrete 3500-letter text all three diverge identically, but the first chunk
each one cuts is different. -/
theorem chunk_text_copies_agree :
    (∀ fuel text cs ov,
      chunk_text_extract fuel text cs ov = chunk_text_graphrag fuel text cs ov ∧
      chunk_text_graphrag fuel text cs ov = chunk_text_simple fuel text cs ov) ∧
    extractDefaultChunkSize = 4000 ∧ graphragDefaultChunkSize = 1000 ∧
      simpleDefaultChunkSize = 3000 ∧
    (∀ fuel,
      chunk_text_extract fuel (List.replicate 3500 'a') extractDefaultChunkSize defaultOverlap
        = none ∧
      chunk_text_graphrag fuel (List.replicate 3500 'a') graphragDefaultChunkSize defaultOverlap
        = none ∧
      chunk_text_simple fuel (List.replicate 3500 'a') simpleDefaultChunkSize defaultOverlap
        = none) ∧
    (chunkStep (List.replicate 3500 'a') extractDefaultChunkSize defaultOverlap ⟨0, []⟩).chunks
      ≠ (chunkStep (List.replicate 3500 'a') graphragDefaultChunkSize defaultOverlap
          ⟨0, []⟩).chunks ∧
    (chunkStep (List.replicate 3500 'a') extractDefaultChunkSize defaultOverlap ⟨0, []⟩).chunks
      ≠ (chunkStep (List.replicate 3500 'a') simpleDefaultChunkSize defaultOverlap
          ⟨0, []⟩).chunks ∧
    (chunkStep (List.replicate 3500 'a') graphragDefaultChunkSize defaultOverlap ⟨0, []⟩).chunks
      ≠ (chunkStep (List.replicate 3500 'a') simpleDefaultChunkSize defaultOverlap
          ⟨0, []⟩).chunks := by
  have hne : (List.replicate 3500 'a') ≠ ([] : List Char) := by
    intro h
    have := congrArg List.length h
    rw [List.length_replicate] at this
    exact absurd this (by decide)
  have hdiverge : ∀ cs, 1 ≤ cs → ∀ fuel,
      chunk_text fuel (List.replicate 3500 'a') cs defaultOverlap = none := by
    intro cs hcs fuel
    unfold chunk_text
    rw [if_neg (by simpa [List.isEmpty_iff] using hne)]
    apply chunkLoop_none hcs (by decide)
    simp only [List.length_replicate]
    decide
  have hstep : ∀ cs, (chunkStep (List.replicate 3500 'a') cs defaultOverlap ⟨0, []⟩).chunks
      = [List.replicate (min cs 3500) 'a'] := fun cs => chunkStep_replicate cs defaultOverlap
  have hdiff : ∀ c1 c2 : Nat, min c1 3500 ≠ min c2 3500 →
      (chunkStep (List.replicate 3500 'a') c1 defaultOverlap ⟨0, []⟩).chunks
        ≠ (chunkStep (List.replicate 3500 'a') c2 defaultOverlap ⟨0, []⟩).chunks := by
    intro c1 c2 hmin h
    rw [hstep, hstep] at h
    apply hmin
    have := congrArg (fun l : List (List Char) => (l.headD []).length) h
    simpa using this
  refine ⟨fun fuel text cs ov => ⟨rfl, rfl⟩, rfl, rfl, rfl, ?_, ?_, ?_, ?_⟩
  · intro fuel
    exact ⟨hdiverge _ (by decide) fuel, hdiverge _ (by decide) fuel, hdiverge _ (by decide) fuel⟩
  · exact hdiff _ _ (by decide)
  · exact hdiff _ _ (by decide)
  · exact hdiff _ _ (by decide)

/-! Embedding of the mock GraphRAG stand-ins from
`src/src/graphrag_integration/mock_implementation.py`. -/

/-- A chunk produced by the mock `DocumentProcessor`: id, text and embedding
vector (rational scores model the Python floats; the only values involved
are far apart, so float rounding cannot change any comparison). -/
structure MockChunk where
  id : List Char
  text : List Char
  embedding : List ℚ
deriving DecidableEq

/-- Python `range(0, stop, step)` for `step >= 1`. -/
def pyRange (stop step : Nat) : List Nat :=
  List.range' 0 ((stop + step - 1) / step) step

/-- The chunk record built at loop index `i` when the accumulated list
already holds `k` chunks. -/
def mkChunk (docId text : List Char) (chunk_size : Nat) (hasEmb : Bool) (k i : Nat) : MockChunk :=
  ⟨docId ++ ("_chunk_" ++ toString k).toList, slice text i (i + chunk_size),
    if hasEmb then List.replicate 10 (1/10 : ℚ) else []⟩

/-- The body of the loop in the mock `DocumentProcessor.process`: keep the
slice `text[i:i+chunk_size]` when it is non-empty, naming it after the
current number of accumulated chunks. -/
def processAcc (docId text : List Char) (chunk_size : Nat) (hasEmb : Bool)
    (acc : List MockChunk) (i : Nat) : List MockChunk :=
  if slice text i (i + chunk_size) ≠ [] then
    acc ++ [mkChunk docId text chunk_size hasEmb acc.length i]
  else acc

/-- The chunks `DocumentProcessor.process` stores on the document. -/
def processChunks (docId text : List Char) (chunk_size chunk_overlap : Nat)
    (hasEmb : Bool) : List MockChunk :=
  (pyRange text.length (chunk_size - chunk_overlap)).foldl
    (processAcc docId text chunk_size hasEmb) []

/-- Sequentially numbered chunks built from a list of start offsets. -/
def buildChunks (docId text : List Char) (chunk_size : Nat) (hasEmb : Bool) :
    Nat → List Nat → List MockChunk
  | _, [] => []
  | k, i :: is => mkChunk docId text chunk_size hasEmb k i
      :: buildChunks docId text chunk_size hasEmb (k + 1) is

theorem slice_ne_nil {text : List Char} {i cs : Nat} (hi : i < text.length) (hcs : 0 < cs) :
    slice text i (i + cs) ≠ [] := by
  apply List.ne_nil_of_length_pos
  unfold slice
  rw [List.length_take, List.length_drop]
  omega

theorem foldl_processAcc {docId text : List Char} {cs : Nat} {hasEmb : Bool} (hcs : 0 < cs) :
    ∀ (is : List Nat) (acc : List MockChunk), (∀ i ∈ is, i < text.length) →
      is.foldl (processAcc docId text cs hasEmb) acc
        = acc ++ buildChunks docId text cs hasEmb acc.length is := by
  intro is
  induction is with
  | nil => intro acc h; simp [buildChunks]
  | cons i rest ih =>
    intro acc h
    have hi : i < text.length := h i (by simp)
    have hstep : processAcc docId text cs hasEmb acc i
        = acc ++ [mkChunk docId text cs hasEmb acc.length i] := by
      unfold processAcc
      rw [if_pos (slice_ne_nil hi hcs)]
    rw [List.foldl_cons, hstep, ih _ (fun x hx => h x (by simp [hx]))]
    simp [buildChunks, List.append_assoc]

theorem buildChunks_range' {docId text : List Char} {cs : Nat} {hasEmb : Bool} {step : Nat} :
    ∀ (n k j : Nat), buildChunks docId text cs hasEmb k (List.range' j n step)
      = (List.range n).map (fun m => mkChunk docId text cs hasEmb (k + m) (j + m * step)) := by
  intro n
  induction n with
  | zero => intro k j; rfl
  | succ n ih =>
    intro k j
    rw [List.range'_succ, List.range_succ_eq_map]
    simp only [buildChunks, List.map_cons, List.map_map]
    congr 1
    · simp
    · rw [ih (k + 1) (j + step)]
      apply List.map_congr_left
      intro m hm
      simp only [Function.comp_apply]
      congr 1
      · omega
      · rw [Nat.succ_mul]
        omega

/-- Ceil-division bound characterizing membership in the Python range. -/
theorem lt_ceilDiv_iff {step m len : Nat} (h : 0 < step) :
    m < (len + step - 1) / step ↔ m * step < len := by
  rw [Nat.lt_iff_add_one_le, Nat.le_div_iff_mul_le h, Nat.succ_mul]
  omega

/-- Claim C8: for `chunk_size > chunk_overlap >= 0` the mock
`DocumentProcessor.process` terminates with exactly the chunks taken at
stride `chunk_size - chunk_overlap`: the k-th chunk is the slice
`text[k*stride : k*stride + chunk_size]` named `{docId}_chunk_{k}`, with
embedding `[0.1]*10` when an embedding model is configured and `[]`
otherwise; every kept chunk is non-empty and every character position of
the text is covered by some chunk. -/
theorem mock_process_spec (docId text : List Char) (cs ov : Nat) (hasEmb : Bool)
    (h : ov < cs) :
    processChunks docId text cs ov hasEmb
      = (List.range ((text.length + (cs - ov) - 1) / (cs - ov))).map
          (fun k => ⟨docId ++ ("_chunk_" ++ toString k).toList,
            slice text (k * (cs - ov)) (k * (cs - ov) + cs),
            if hasEmb then List.replicate 10 (1/10 : ℚ) else []⟩) ∧
    (∀ c ∈ processChunks docId text cs ov hasEmb, c.text ≠ []) ∧
    (∀ p < text.length, ∃ k < (text.length + (cs - ov) - 1) / (cs - ov),
      k * (cs - ov) ≤ p ∧ p < k * (cs - ov) + cs) := by
  have hstep : 0 < cs - ov := by omega
  have hcs : 0 < cs := by omega
  have hmem : ∀ i ∈ pyRange text.length (cs - ov), i < text.length := by
    intro i hi
    unfold pyRange at hi
    rcases List.mem_range'.mp hi with ⟨m, hm, rfl⟩
    have h1 := (lt_ceilDiv_iff hstep).mp hm
    have h2 : m * (cs - ov) = (cs - ov) * m := Nat.mul_comm _ _
    omega
  have hformula : processChunks docId text cs ov hasEmb
      = (List.range ((text.length + (cs - ov) - 1) / (cs - ov))).map
          (fun k => mkChunk docId text cs hasEmb k (k * (cs - ov))) := by
    unfold processChunks pyRange
    rw [foldl_processAcc hcs _ [] (by
      intro i hi
      exact hmem i (by simpa [pyRange] using hi))]
    rw [List.nil_append, List.length_nil, buildChunks_range']
    apply List.map_congr_left
    intro m hm
    simp [Nat.zero_add]
  refine ⟨hformula, ?_, ?_⟩
  · intro c hc
    rw [hformula] at hc
    rcases List.mem_map.mp hc with ⟨k, hk, rfl⟩
    have hk' := (lt_ceilDiv_iff hstep).mp (List.mem_range.mp hk)
    exact slice_ne_nil (by omega) hcs
  · intro p hp
    refine ⟨p / (cs - ov), ?_, ?_, ?_⟩
    · rw [lt_ceilDiv_iff hstep]
      have := Nat.div_mul_le_self p (cs - ov)
      omega
    · exact Nat.div_mul_le_self p (cs - ov)
    · have hmod := Nat.mod_lt p hstep
      have hdm := Nat.div_add_mod p (cs - ov)
      have hcm : (cs - ov) * (p / (cs - ov)) = (p / (cs - ov)) * (cs - ov) := Nat.mul_comm _ _
      omega

theorem mock_process_spec_witness :
    processChunks ("d".toList) ("abcde".toList) 3 1 false
      = [⟨"d".toList ++ ("_chunk_" ++ toString 0).toList, slice ("abcde".toList) 0 3, []⟩,
         ⟨"d".toList ++ ("_chunk_" ++ toString 1).toList, slice ("abcde".toList) 2 5, []⟩,
         ⟨"d".toList ++ ("_chunk_" ++ toString 2).toList, slice ("abcde".toList) 4 7, []⟩] := by
  have h := (mock_process_spec ("d".toList) ("abcde".toList) 3 1 false (by decide)).1
  rw [h]
  rfl

/-! Embedding of the mock `LexicalGraph.query` from
`src/src/graphrag_integration/mock_implementation.py`. -/

/-- A stored fact of the mock lexical graph. -/
structure Fact where
  id : List Char
  subject : List Char
  predicate : List Char
  object : List Char
  confidence : ℚ
deriving DecidableEq

/-- Python `s.lower()` on a list of characters. -/
def lowerS (s : List Char) : List Char := s.map Char.toLower

/-- Python `needle in hay` for strings: contiguous substring test. -/
def containsSub (hay needle : List Char) : Bool :=
  (List.range (hay.length + 1)).any (fun i => needle.isPrefixOf (hay.drop i))

/-- Score added for a query hit in the subject field. -/
def subjectScore : ℚ := 8 / 10

/-- Score added for a query hit in the predicate field. -/
def predicateScore : ℚ := 5 / 10

/-- Score added for a query hit in the object field. -/
def objectScore : ℚ := 7 / 10

/-- The additive score `LexicalGraph.query` computes for one fact against the
already-lowercased query. -/
def factScore (q : List Char) (f : Fact) : ℚ :=
  (if containsSub (lowerS f.subject) q then subjectScore else 0)
    + (if containsSub (lowerS f.predicate) q then predicateScore else 0)
    + (if containsSub (lowerS f.object) q then objectScore else 0)

/-- A result entry of `LexicalGraph.query`: the fact triple and its score. -/
structure QueryResult where
  subject : List Char
  predicate : List Char
  object : List Char
  score : ℚ
deriving DecidableEq

/-- The result dictionary built for a matching fact. -/
def mkResult (f : Fact) (sc : ℚ) : QueryResult := ⟨f.subject, f.predicate, f.object, sc⟩

/-- The positively scored facts, in storage order, as `LexicalGraph.query`
collects them before sorting. -/
def matchingResults (facts : List Fact) (query : List Char) : List QueryResult :=
  facts.filterMap (fun f =>
    if 0 < factScore (lowerS query) f
    then some (mkResult f (factScore (lowerS query) f)) else none)

/-- `LexicalGraph.query(query, top_k)`: collect positively scored facts,
sort stably by score descending, and truncate to `top_k`. -/
def lexQuery (facts : List Fact) (query : List Char) (top_k : Nat) : List QueryResult :=
  ((matchingResults facts query).mergeSort
    (fun a b => decide (b.score ≤ a.score))).take top_k

/-- A fact is positively scored exactly when the lowercased query occurs in
its lowercased subject, predicate or object. -/
theorem factScore_pos_iff (q : List Char) (f : Fact) :
    0 < factScore q f ↔
      (containsSub (lowerS f.subject) q = true ∨ containsSub (lowerS f.predicate) q = true ∨
        containsSub (lowerS f.object) q = true) := by
  unfold factScore
  by_cases h1 : containsSub (lowerS f.subject) q <;>
    by_cases h2 : containsSub (lowerS f.predicate) q <;>
      by_cases h3 : containsSub (lowerS f.object) q <;>
        simp [h1, h2, h3, subjectScore, predicateScore, objectScore] <;> norm_num

/-- The fact used to exhibit the truncation counterexample. -/
def aFact : Fact := ⟨"f1".toList, "a".toList, "b".toList, "c".toList, 1⟩

/-- Counterexample to claim C10 as stated: with `top_k = 0` (an allowed
value) the query returns no results although a stored fact matches the
query, so the returned set is not the set of matching facts. -/
theorem lexQuery_claim_counterexample :
    lexQuery [aFact] ("a".toList) 0 = [] ∧ 0 < factScore (lowerS ("a".toList)) aFact := by
  constructor
  · rfl
  · rw [factScore_pos_iff]
    left
    decide

/-- Claim C10 (amended): `LexicalGraph.query` returns at most `top_k`
results, ordered by non-increasing score; every returned entry is a stored
fact whose lowercased subject, predicate or object contains the lowercased
query, carrying its additive score (0.8 subject + 0.5 predicate +
0.7 object, hence positive); and whenever at most `top_k` stored facts
match, the returned results are exactly the matching facts up to order. -/
theorem lexQuery_spec (facts : List Fact) (query : List Char) (top_k : Nat) :
    (lexQuery facts query top_k).length ≤ top_k ∧
    List.Pairwise (fun a b : QueryResult => b.score ≤ a.score) (lexQuery facts query top_k) ∧
    (∀ r ∈ lexQuery facts query top_k, ∃ f ∈ facts,
      r = mkResult f (factScore (lowerS query) f) ∧ 0 < factScore (lowerS query) f ∧
      (containsSub (lowerS f.subject) (lowerS query) = true ∨
        containsSub (lowerS f.predicate) (lowerS query) = true ∨
        containsSub (lowerS f.object) (lowerS query) = true)) ∧
    ((matchingResults facts query).length ≤ top_k →
      (lexQuery facts query top_k).Perm (matchingResults facts query)) := by
  have hperm := List.mergeSort_perm (matchingResults facts query)
    (fun a b => decide (b.score ≤ a.score))
  refine ⟨?_, ?_, ?_, ?_⟩
  · unfold lexQuery
    rw [List.length_take]
    omega
  · have hsorted := @List.sorted_mergeSort QueryResult
      (fun a b : QueryResult => decide (b.score ≤ a.score))
      (fun a b c hab hbc => by
        simp only [decide_eq_true_eq] at hab hbc ⊢
        exact le_trans hbc hab)
      (fun a b => by
        rcases le_total a.score b.score with h | h
        · simp [h]
        · simp [h])
      (matchingResults facts query)
    have htake : List.Pairwise
        (fun a b : QueryResult => decide (b.score ≤ a.score) = true)
        (lexQuery facts query top_k) :=
      hsorted.sublist (List.take_sublist _ _)
    exact htake.imp (fun h => by simpa using h)
  · intro r hr
    have hr' : r ∈ matchingResults facts query := by
      have h1 : r ∈ (matchingResults facts query).mergeSort
          (fun a b => decide (b.score ≤ a.score)) :=
        List.mem_of_mem_take hr
      exact hperm.mem_iff.mp h1
    rcases List.mem_filterMap.mp hr' with ⟨f, hf, hsome⟩
    by_cases hpos : 0 < factScore (lowerS query) f
    · rw [if_pos hpos] at hsome
      rcases Option.some.inj hsome with rfl
      exact ⟨f, hf, rfl, hpos, (factScore_pos_iff _ f).mp hpos⟩
    · rw [if_neg hpos] at hsome
      exact absurd hsome (by simp)
  · intro hlen
    unfold lexQuery
    rw [List.take_of_length_le (by rw [hperm.length_eq]; exact hlen)]
    exact hperm

theorem lexQuery_spec_witness :
    (lexQuery [] ("a".toList) 3).Perm (matchingResults [] ("a".toList)) :=
  (lexQuery_spec [] ("a".toList) 3).2.2.2 (by decide)

/-! Embedding of `get_neptune_connection_string` from
`src/config/neptune_config.py`.  The process environment is modelled as a
partial map from variable names to values; Python's `os.getenv(k, d)` is
`(env k).getD d` and a raised `ValueError` is `Except.error`. -/

/-- Python `s.upper()` (ASCII) on a string. -/
def upperS (s : String) : String := ⟨s.toList.map Char.toUpper⟩

/-- `get_neptune_connection_string`, reading the module-level configuration
values loaded from the environment. -/
def neptuneConnection (env : String → Option String) : Except String String :=
  match env "NEPTUNE_ENDPOINT" with
  | none => Except.error "NEPTUNE_ENDPOINT environment variable is not set"
  | some ep =>
    if ep = "" then Except.error "NEPTUNE_ENDPOINT environment variable is not set"
    else if upperS ((env "NEPTUNE_AUTH_MODE").getD "IAM") = "IAM" then
      Except.ok ("wss://" ++ ep ++ ":" ++ (env "NEPTUNE_PORT").getD "8182" ++ "/gremlin")
    else
      Except.ok ("ws://" ++ ep ++ ":" ++ (env "NEPTUNE_PORT").getD "8182" ++ "/gremlin")

/-- Claim C9: `get_neptune_connection_string` raises `ValueError` exactly
when `NEPTUNE_ENDPOINT` is unset or empty, and otherwise returns
`wss://endpoint:port/gremlin` when the auth mode upper-cases to `IAM` and
`ws://endpoint:port/gremlin` otherwise, the port defaulting to `8182` and
the auth mode to `IAM` when the corresponding variables are unset. -/
theorem neptuneConnection_spec (env : String → Option String) :
    ((∃ msg, neptuneConnection env = Except.error msg) ↔
      (env "NEPTUNE_ENDPOINT" = none ∨ env "NEPTUNE_ENDPOINT" = some "")) ∧
    (∀ ep, env "NEPTUNE_ENDPOINT" = some ep → ep ≠ "" →
      neptuneConnection env = Except.ok
        ((if upperS ((env "NEPTUNE_AUTH_MODE").getD "IAM") = "IAM"
            then "wss://" else "ws://")
          ++ ep ++ ":" ++ (env "NEPTUNE_PORT").getD "8182" ++ "/gremlin")) := by
  constructor
  · constructor
    · intro hmsg
      rcases hmsg with ⟨msg, hmsg⟩
      unfold neptuneConnection at hmsg
      cases hep : env "NEPTUNE_ENDPOINT" with
      | none => exact Or.inl rfl
      | some ep =>
        rw [hep] at hmsg
        dsimp only at hmsg
        by_cases he : ep = ""
        · subst he
          exact Or.inr rfl
        · rw [if_neg he] at hmsg
          split_ifs at hmsg <;> exact absurd hmsg (by simp)
    · intro h
      rcases h with h | h
      · exact ⟨_, by unfold neptuneConnection; rw [h]⟩
      · exact ⟨_, by unfold neptuneConnection; rw [h]; rfl⟩
  · intro ep hep hne
    unfold neptuneConnection
    rw [hep]
    dsimp only
    rw [if_neg hne]
    split_ifs with hmode
    · rfl
    · rfl

/-- A concrete environment for the connection-string witness. -/
def envSample : String → Option String :=
  fun k => if k = "NEPTUNE_ENDPOINT" then some "db.example.com" else none

theorem neptuneConnection_spec_witness :
    neptuneConnection envSample = Except.ok "wss://db.example.com:8182/gremlin" := by
  have h := (neptuneConnection_spec envSample).2 "db.example.com" rfl (by decide)
  rw [h]
  rfl

/-! Embedding of `execute_query` from
`src/scripts/create_metacog_schema_opencypher.py`.  The shell execution of
the interpolated `awscurl` command is an oracle returning either the
command's output text or a raised exception, and `json.loads` is an oracle
returning `none` where Python would raise. -/

/-- The double-quote character. -/
def quoteChar : Char := Char.ofNat 34

/-- The backslash character. -/
def backslashChar : Char := Char.ofNat 92

/-- Python `s.replace(c, rep)` for a single-character pattern. -/
def pyReplace1 (c : Char) (rep : List Char) (l : List Char) : List Char :=
  l.flatMap (fun x => if x = c then rep else [x])

/-- The query escaping performed by `execute_query`:
`query.replace('"', '\\"').replace('\n', ' ')`. -/
def escapeQuery (q : List Char) : List Char :=
  pyReplace1 nlChar [' '] (pyReplace1 quoteChar [backslashChar, quoteChar] q)

/-- The fixed part of the `awscurl` command before the interpolated query. -/
def cmdPre : List Char :=
  ("awscurl -X POST --region us-west-2 --service neptune-graph "
    ++ "https://g-k2n0lshd74.us-west-2.neptune-graph.amazonaws.com/opencypher "
    ++ "-d \"query=").toList

/-- The fixed part of the `awscurl` command after the interpolated query. -/
def cmdPost : List Char :=
  ("\" -H \"Content-Type: application/x-www-form-urlencoded\"").toList

/-- The shell command `execute_query` assembles. -/
def buildCmd (q : List Char) : List Char := cmdPre ++ escapeQuery q ++ cmdPost

/-- `execute_query(query)`: run the command; on any output, return success
with the JSON-parsed output when it parses and the raw output otherwise; on
a raised exception return failure with its message. -/
def execute_query {α : Type} (runShell : List Char → Except (List Char) (List Char))
    (parseJson : List Char → Option α) (query : List Char) :
    Bool × (α ⊕ List Char) :=
  match runShell (buildCmd query) with
  | Except.ok result =>
    match parseJson result with
    | some j => (true, Sum.inl j)
    | none => (true, Sum.inr result)
  | Except.error e => (false, Sum.inr e)

/-- Claim C7: the query is interpolated into the shell command escaping only
double quotes (to `\"`) and newlines (to spaces), every run that yields an
output string returns success `(True, parsed-or-raw output)` regardless of
what the output says, and `(False, message)` appears only when a Python
exception is raised while assembling or running the command. -/
theorem execute_query_spec {α : Type} (runShell : List Char → Except (List Char) (List Char))
    (parseJson : List Char → Option α) (query : List Char) :
    escapeQuery query = query.flatMap (fun c =>
      if c = quoteChar then [backslashChar, quoteChar]
      else if c = nlChar then [' '] else [c]) ∧
    buildCmd query = cmdPre ++ escapeQuery query ++ cmdPost ∧
    (∀ r, runShell (buildCmd query) = Except.ok r →
      execute_query runShell parseJson query
        = (true, match parseJson r with | some j => Sum.inl j | none => Sum.inr r)) ∧
    (∀ e, runShell (buildCmd query) = Except.error e →
      execute_query runShell parseJson query = (false, Sum.inr e)) ∧
    ((execute_query runShell parseJson query).1 = false ↔
      ∃ e, runShell (buildCmd query) = Except.error e) := by
  refine ⟨?_, rfl, ?_, ?_, ?_⟩
  · induction query with
    | nil => rfl
    | cons c t ih =>
      have hbn : backslashChar = nlChar ↔ False := iff_false_intro (by decide)
      have hqn : quoteChar = nlChar ↔ False := iff_false_intro (by decide)
      unfold escapeQuery pyReplace1 at ih ⊢
      rw [List.flatMap_cons, List.flatMap_append, ih]
      by_cases hq : c = quoteChar
      · subst hq
        rw [if_pos rfl]
        simp [hbn, hqn]
      · rw [if_neg hq]
        by_cases hn : c = nlChar
        · subst hn
          simp [hq]
        · simp [hq, hn]
  · intro r hr
    unfold execute_query
    rw [hr]
    dsimp only
    cases parseJson r <;> rfl
  · intro e he
    unfold execute_query
    rw [he]
  · unfold execute_query
    cases hs : runShell (buildCmd query) with
    | ok r =>
      dsimp only
      cases parseJson r <;> simp
    | error e => simp

theorem execute_query_spec_witness :
    execute_query (fun _ => Except.ok ("out".toList)) (fun _ => (none : Option Unit))
      ("MATCH (n) RETURN n".toList) = (true, Sum.inr ("out".toList)) := by
  have h := (execute_query_spec (fun _ => Except.ok ("out".toList))
    (fun _ => (none : Option Unit)) ("MATCH (n) RETURN n".toList)).2.2.1 ("out".toList) rfl
  rw [h]

/-! Model of Python JSON values, used by the embeddings of
`BedrockClient._invoke_model` and `BedrockClient._extract_json` of
`extract_arguments_from_pdf.py`. -/

/-- A parsed JSON value as `json.loads` would produce it. -/
inductive Json where
  | null
  | bool (b : Bool)
  | num (q : ℚ)
  | str (s : List Char)
  | arr (elems : List Json)
  | obj (fields : List (List Char × Json))

/-- Whether a JSON value is an array (a Python list). -/
def Json.isArr : Json → Bool
  | Json.arr _ => true
  | _ => false

/-- Python subscripting `body[key]` for a string key: a value only on a
dict holding that key; every other case raises and is collapsed to `none`
because the callers catch all exceptions. -/
def getKey : Json → List Char → Option Json
  | Json.obj fields, k => (fields.find? (fun p => p.1 == k)).map Prod.snd
  | _, _ => none

/-- Python subscripting `body[0]`: the first element of a list; every other
case raises (or yields a non-dict that makes the next subscript raise) and
is collapsed to `none`. -/
def index0 : Json → Option Json
  | Json.arr (x :: _) => some x
  | _ => none

/-- The lookup path `response_body['content'][0]['text']`. -/
def contentFirstText (body : Json) : Option Json :=
  (getKey body ("content".toList)).bind (fun c =>
    (index0 c).bind (fun first => getKey first ("text".toList)))

/-- `BedrockClient._invoke_model(prompt)`: the Bedrock call and the JSON
decoding of its body are an oracle returning either the parsed body or a
raised exception; the whole body of the function is inside
`try ... except: return None`. -/
def invoke_model (client : List Char → Except (List Char) Json) (prompt : List Char) :
    Option Json :=
  match client prompt with
  | Except.error _ => none
  | Except.ok body =>
    match contentFirstText body with
    | some t => some t
    | none => none

/-- `DocumentReader.read_pdf_file(path)`: the PyPDF2 import and page
iteration are an oracle returning either the pages' extracted texts or a
raised exception (`ImportError` included); on success the page texts are
concatenated, each followed by a blank line. -/
def read_pdf_file (readPages : List Char → Except (List Char) (List (List Char)))
    (path : List Char) : Option (List Char) :=
  match readPages path with
  | Except.error _ => none
  | Except.ok pages => some (pages.foldl (fun acc p => acc ++ p ++ parBreak) [])

theorem foldl_pages (pages : List (List Char)) :
    ∀ acc : List Char, pages.foldl (fun acc p => acc ++ p ++ parBreak) acc
      = acc ++ (pages.map (fun p => p ++ parBreak)).flatten := by
  induction pages with
  | nil => intro acc; simp
  | cons p rest ih =>
    intro acc
    rw [List.foldl_cons, ih]
    simp [List.append_assoc]

/-- Claim C6: neither `BedrockClient._invoke_model` nor
`DocumentReader.read_pdf_file` ever propagates an exception: both are total
and return `none` whenever their oracle raises or the response shape is
unexpected; on success `_invoke_model` returns the text of the first
content block `body['content'][0]['text']` and `read_pdf_file` returns the
page texts each followed by a blank line. -/
theorem invoke_and_read_never_raise
    (client : List Char → Except (List Char) Json) (prompt : List Char)
    (readPages : List Char → Except (List Char) (List (List Char))) (path : List Char) :
    (∀ e, client prompt = Except.error e → invoke_model client prompt = none) ∧
    (∀ body, client prompt = Except.ok body →
      invoke_model client prompt = contentFirstText body) ∧
    (∀ e, readPages path = Except.error e → read_pdf_file readPages path = none) ∧
    (∀ pages, readPages path = Except.ok pages →
      read_pdf_file readPages path
        = some ((pages.map (fun p => p ++ parBreak)).flatten)) := by
  refine ⟨?_, ?_, ?_, ?_⟩
  · intro e he
    unfold invoke_model
    rw [he]
  · intro body hb
    unfold invoke_model
    rw [hb]
    dsimp only
    cases contentFirstText body <;> rfl
  · intro e he
    unfold read_pdf_file
    rw [he]
  · intro pages hp
    unfold read_pdf_file
    rw [hp]
    dsimp only
    rw [foldl_pages pages []]
    rfl

theorem invoke_and_read_never_raise_witness :
    invoke_model (fun _ => Except.error ("boom".toList)) ("p".toList) = none ∧
    read_pdf_file (fun _ => Except.ok ["one".toList, "two".toList]) ("f.pdf".toList)
      = some ((["one".toList, "two".toList].map (fun p => p ++ parBreak)).flatten) :=
  ⟨(invoke_and_read_never_raise (fun _ => Except.error ("boom".toList)) ("p".toList)
      (fun _ => Except.ok []) ("f.pdf".toList)).1 ("boom".toList) rfl,
    (invoke_and_read_never_raise (fun _ => Except.error ("boom".toList)) ("p".toList)
      (fun _ => Except.ok ["one".toList, "two".toList]) ("f.pdf".toList)).2.2.2
      ["one".toList, "two".toList] rfl⟩

/-! Embedding of `BedrockClient._extract_json`.  The two regular expression
searches of the Python code are over the fixed patterns
`\[\s*\{.*\}\s*\]` and `\{.*\}` with `re.DOTALL`; their leftmost-greedy
semantics is implemented directly: at a start position the whitespace runs
are skipped maximally (backtracking over `\s*` can only stop at the end of
a run because `{`, `]` are not whitespace) and the greedy `.*` picks the
last closing position that lets the rest of the pattern match. -/

/-- Python regex `\s` on ASCII text: space, tab, newline, carriage return,
vertical tab and form feed. -/
def isWsChar (c : Char) : Bool :=
  c = ' ' || c = Char.ofNat 9 || c = Char.ofNat 10 || c = Char.ofNat 13
    || c = Char.ofNat 11 || c = Char.ofNat 12

/-- The first index at or after `i` holding a non-whitespace character (or
the text length). -/
def skipWs (text : List Char) (i : Nat) : Nat :=
  i + ((text.drop i).takeWhile isWsChar).length

/-- The character at index `i`, if any. -/
def charAt (text : List Char) (i : Nat) : Option Char := text[i]?

/-- The opening square bracket. -/
def lBrackChar : Char := '['

/-- The closing square bracket. -/
def rBrackChar : Char := ']'

/-- The opening curly brace. -/
def lCurlyChar : Char := Char.ofNat 123

/-- The closing curly brace. -/
def rCurlyChar : Char := Char.ofNat 125

/-- First index `i < n` satisfying `P`, or `none`: the scan order of
`re.search`. -/
def firstIn (P : Nat → Bool) (n : Nat) : Option Nat :=
  ((List.range n).filter P).head?

/-- End (exclusive) of the greedy match of `\[\s*\{.*\}\s*\]` (DOTALL)
starting at `i`, if the pattern matches there. -/
def arrMatchEnd (text : List Char) (i : Nat) : Option Nat :=
  if charAt text i = some lBrackChar then
    if charAt text (skipWs text (i + 1)) = some lCurlyChar then
      match lastIn (fun m => decide (skipWs text (i + 1) < m)
          && decide (charAt text m = some rCurlyChar)
          && decide (charAt text (skipWs text (m + 1)) = some rBrackChar)) text.length with
      | some m => some (skipWs text (m + 1) + 1)
      | none => none
    else none
  else none

/-- `re.search(r'\[\s*\{.*\}\s*\]', text, re.DOTALL)`: the span of the
match at the leftmost position where the pattern matches. -/
def searchArr (text : List Char) : Option (Nat × Nat) :=
  match firstIn (fun i => (arrMatchEnd text i).isSome) text.length with
  | some i => (arrMatchEnd text i).map (fun e => (i, e))
  | none => none

/-- End (exclusive) of the greedy match of `\{.*\}` (DOTALL) starting at
`i`, if the pattern matches there. -/
def objMatchEnd (text : List Char) (i : Nat) : Option Nat :=
  if charAt text i = some lCurlyChar then
    match lastIn (fun m => decide (i < m) && decide (charAt text m = some rCurlyChar))
        text.length with
    | some m => some (m + 1)
    | none => none
  else none

/-- `re.search(r'\{.*\}', text, re.DOTALL)`. -/
def searchObj (text : List Char) : Option (Nat × Nat) :=
  match firstIn (fun i => (objMatchEnd text i).isSome) text.length with
  | some i => (objMatchEnd text i).map (fun e => (i, e))
  | none => none

/-- `BedrockClient._extract_json(response)`: `json.loads` is an oracle
returning `none` where Python would raise, and the whole body is inside
`try ... except: return []`. -/
def extract_json (loads : List Char → Option Json) (response : Option (List Char)) : Json :=
  match response with
  | none => Json.arr []
  | some r =>
    if r = [] then Json.arr []
    else
      match searchArr r with
      | some (i, e) =>
        match loads (slice r i e) with
        | some v => v
        | none => Json.arr []
      | none =>
        match searchObj r with
        | some (i, e) =>
          match loads (lBrackChar :: (slice r i e ++ [rBrackChar])) with
          | some v => v
          | none => Json.arr []
        | none => Json.arr []

theorem skipWs_ge (text : List Char) (i : Nat) : i ≤ skipWs text i := by
  unfold skipWs
  omega

theorem arrMatchEnd_some {text : List Char} {i e : Nat} (h : arrMatchEnd text i = some e) :
    charAt text i = some lBrackChar ∧ i < e := by
  unfold arrMatchEnd at h
  by_cases h1 : charAt text i = some lBrackChar
  · rw [if_pos h1] at h
    by_cases h2 : charAt text (skipWs text (i + 1)) = some lCurlyChar
    · rw [if_pos h2] at h
      cases hm : lastIn (fun m => decide (skipWs text (i + 1) < m)
          && decide (charAt text m = some rCurlyChar)
          && decide (charAt text (skipWs text (m + 1)) = some rBrackChar)) text.length with
      | none => rw [hm] at h; exact absurd h (by simp)
      | some m =>
        rw [hm] at h
        dsimp only at h
        rcases lastIn_spec hm with ⟨-, hp⟩
        simp only [Bool.and_eq_true, decide_eq_true_eq] at hp
        have hk1 : i + 1 ≤ skipWs text (i + 1) := skipWs_ge text (i + 1)
        have hk2 : m + 1 ≤ skipWs text (m + 1) := skipWs_ge text (m + 1)
        have he : e = skipWs text (m + 1) + 1 := (Option.some.inj h).symm
        have hkm : skipWs text (i + 1) < m := hp.1.1
        exact ⟨h1, by omega⟩
    · rw [if_neg h2] at h
      exact absurd h (by simp)
  · rw [if_neg h1] at h
    exact absurd h (by simp)

theorem searchArr_some {text : List Char} {i e : Nat} (h : searchArr text = some (i, e)) :
    charAt text i = some lBrackChar ∧ i < e := by
  unfold searchArr at h
  cases hf : firstIn (fun j => (arrMatchEnd text j).isSome) text.length with
  | none => rw [hf] at h; exact absurd h (by simp)
  | some i0 =>
    rw [hf] at h
    dsimp only at h
    cases hm : arrMatchEnd text i0 with
    | none => rw [hm] at h; exact absurd h (by simp)
    | some e0 =>
      rw [hm] at h
      simp only [Option.map_some'] at h
      rcases Prod.mk.injEq .. ▸ Option.some.inj h with ⟨rfl, rfl⟩
      exact arrMatchEnd_some hm

theorem slice_head {text : List Char} {i e : Nat} {c : Char}
    (hc : charAt text i = some c) (hie : i < e) :
    (slice text i e).head? = some c := by
  unfold charAt at hc
  rcases List.getElem?_eq_some_iff.mp hc with ⟨hlt, hget⟩
  unfold slice
  rw [List.drop_eq_getElem_cons hlt]
  rw [show e - i = (e - i - 1) + 1 from by omega]
  rw [List.take_succ_cons]
  simp [hget]

/-- Claim C4: `_extract_json` always returns a list (a JSON array) and never
propagates an exception: a matching `\[\s*\{.*\}\s*\]` span is parsed and
returned, else a matching `\{.*\}` span is wrapped in `[...]`, parsed and
returned, and a missing/empty response, a failed search or a parse failure
all yield the empty list.  The hypothesis on `loads` is the JSON grammar
fact that a document starting with `[` parses, if at all, to an array. -/
theorem extract_json_spec (loads : List Char → Option Json) (response : Option (List Char))
    (hloads : ∀ s v, loads s = some v → s.head? = some lBrackChar → v.isArr = true) :
    (extract_json loads response).isArr = true ∧
    (response = none → extract_json loads response = Json.arr []) ∧
    (response = some [] → extract_json loads response = Json.arr []) ∧
    (∀ r, response = some r → r ≠ [] →
      (∀ i e, searchArr r = some (i, e) →
        extract_json loads response = (loads (slice r i e)).getD (Json.arr [])) ∧
      (searchArr r = none → ∀ i e, searchObj r = some (i, e) →
        extract_json loads response
          = (loads (lBrackChar :: (slice r i e ++ [rBrackChar]))).getD (Json.arr [])) ∧
      (searchArr r = none → searchObj r = none →
        extract_json loads response = Json.arr [])) := by
  cases response with
  | none =>
    refine ⟨rfl, fun _ => rfl, fun h => Option.noConfusion h, fun r hr => Option.noConfusion hr⟩
  | some r =>
    by_cases hr : r = []
    · subst hr
      refine ⟨rfl, fun h => Option.noConfusion h, fun _ => rfl, fun r' hr' hne => ?_⟩
      exact absurd (Option.some.inj hr').symm hne
    · cases hA : searchArr r with
      | some ie =>
        obtain ⟨i, e⟩ := ie
        have hEq : extract_json loads (some r) = (loads (slice r i e)).getD (Json.arr []) := by
          unfold extract_json
          dsimp only
          rw [if_neg hr, hA]
          dsimp only
          cases loads (slice r i e) <;> rfl
        refine ⟨?_, fun h => Option.noConfusion h, fun h => absurd (Option.some.inj h) hr,
          fun r' hr' hne => ?_⟩
        · rw [hEq]
          cases hl : loads (slice r i e) with
          | none => rfl
          | some v =>
            rcases searchArr_some hA with ⟨hc, hie⟩
            exact hloads _ _ hl (slice_head hc hie)
        · obtain rfl : r' = r := (Option.some.inj hr').symm
          refine ⟨fun i' e' hA' => ?_, fun hAn => Option.noConfusion (hA ▸ hAn), fun hAn _ =>
            Option.noConfusion (hA ▸ hAn)⟩
          rw [hA] at hA'
          rcases Prod.mk.injEq .. ▸ Option.some.inj hA' with ⟨rfl, rfl⟩
          exact hEq
      | none =>
        cases hO : searchObj r with
        | some ie =>
          obtain ⟨i, e⟩ := ie
          have hEq : extract_json loads (some r)
              = (loads (lBrackChar :: (slice r i e ++ [rBrackChar]))).getD (Json.arr []) := by
            unfold extract_json
            dsimp only
            rw [if_neg hr, hA, hO]
            dsimp only
            cases loads (lBrackChar :: (slice r i e ++ [rBrackChar])) <;> rfl
          refine ⟨?_, fun h => Option.noConfusion h, fun h => absurd (Option.some.inj h) hr,
            fun r' hr' hne => ?_⟩
          · rw [hEq]
            cases hl : loads (lBrackChar :: (slice r i e ++ [rBrackChar])) with
            | none => rfl
            | some v => exact hloads _ _ hl rfl
          · obtain rfl : r' = r := (Option.some.inj hr').symm
            refine ⟨fun i' e' hA' => Option.noConfusion (hA ▸ hA'),
              fun _ i' e' hO' => ?_, fun _ hOn => Option.noConfusion (hO ▸ hOn)⟩
            rw [hO] at hO'
            rcases Prod.mk.injEq .. ▸ Option.some.inj hO' with ⟨rfl, rfl⟩
            exact hEq
        | none =>
          have hEq : extract_json loads (some r) = Json.arr [] := by
            unfold extract_json
            dsimp only
            rw [if_neg hr, hA, hO]
          refine ⟨by rw [hEq]; rfl, fun h => Option.noConfusion h,
            fun h => absurd (Option.some.inj h) hr, fun r' hr' hne => ?_⟩
          obtain rfl : r' = r := (Option.some.inj hr').symm
          exact ⟨fun i' e' hA' => Option.noConfusion (hA ▸ hA'),
            fun _ i' e' hO' => Option.noConfusion (hO ▸ hO'), fun _ _ => hEq⟩

theorem extract_json_spec_witness :
    (extract_json (fun _ => none) (some ("no json here".toList))).isArr = true :=
  (extract_json_spec (fun _ => none) (some ("no json here".toList))
    (fun s v h _ => Option.noConfusion h)).1

/-! Embedding of the extraction pipeline of `extract_arguments_from_pdf.main`.
The LLM extraction calls are oracles returning arbitrary lists of records
(dictionaries restricted to the keys the code reads), and the sequence of
`add_issue`/`add_position`/`add_argument`/`add_evidence` calls the loops of
`main` perform, in program order, is modelled as a trace of events. -/

/-- An issue record as returned by `extract_issues`: the keys `main` reads. -/
structure IssueDict where
  question : List Char
  issue_type : Option (List Char)
  description : Option (List Char)

/-- A position record as returned by `extract_positions`. -/
structure PositionDict where
  answer : List Char
  description : Option (List Char)

/-- An argument record as returned by `extract_arguments`; the `evidence`
key may be absent. -/
structure ArgDict where
  warrant : List Char
  evidence : Option (List Char)

/-- One `add_*` call on the `ArgumentModel`, in program order. -/
inductive Event where
  | issue (id question issue_type : List Char) (description : Option (List Char))
  | position (id issue_id answer : List Char) (description : Option (List Char))
  | argument (id position_id warrant : List Char) (is_supporting : Bool)
  | evidence (id argument_id content : List Char) (source : Option (List Char))

/-- Decimal rendering of a number inside an identifier. -/
def natStr (n : Nat) : List Char := (toString n).toList

/-- `f"issue{i+1}"`. -/
def issueId (i : Nat) : List Char := "issue".toList ++ natStr (i + 1)

/-- `f"position{i+1}_{j+1}"`. -/
def positionId (i j : Nat) : List Char :=
  "position".toList ++ natStr (i + 1) ++ "_".toList ++ natStr (j + 1)

/-- `f"arg{i+1}_{j+1}_sup{k+1}"` and its `reb` sibling. -/
def argId (i j k : Nat) (tag : List Char) : List Char :=
  "arg".toList ++ natStr (i + 1) ++ "_".toList ++ natStr (j + 1) ++ "_".toList
    ++ tag ++ natStr (k + 1)

/-- `f"evidence{i+1}_{j+1}_sup{k+1}"` and its `reb` sibling. -/
def evidenceId (i j k : Nat) (tag : List Char) : List Char :=
  "evidence".toList ++ natStr (i + 1) ++ "_".toList ++ natStr (j + 1) ++ "_".toList
    ++ tag ++ natStr (k + 1)

/-- The tag used for supporting arguments. -/
def supTag : List Char := "sup".toList

/-- The tag used for rebutting arguments. -/
def rebTag : List Char := "reb".toList

/-- The trace of the inner `for k, arg in enumerate(args)` loop: each
argument is added against the enclosing position, followed by an evidence
record exactly when the argument dictionary holds an `evidence` key. -/
def argsTrace (i j : Nat) (tag pid : List Char) (su : Bool) : Nat → List ArgDict → List Event
  | _, [] => []
  | k, a :: rest =>
    Event.argument (argId i j k tag) pid a.warrant su
      :: ((match a.evidence with
          | some content =>
            [Event.evidence (evidenceId i j k tag) (argId i j k tag) content
              (some ("Chunk 1".toList))]
          | none => []) ++ argsTrace i j tag pid su (k + 1) rest)

/-- The trace of the `for j, position in enumerate(positions)` loop: each
position is added against the enclosing issue, then its supporting and
rebutting arguments are extracted and added. -/
def positionsTrace (EA : List Char → List Char → List Char → Bool → List ArgDict)
    (text : List Char) (i : Nat) (iid question : List Char) :
    Nat → List PositionDict → List Event
  | _, [] => []
  | j, p :: rest =>
    Event.position (positionId i j) iid p.answer p.description
      :: (argsTrace i j supTag (positionId i j) true 0 (EA text question p.answer true)
        ++ (argsTrace i j rebTag (positionId i j) false 0 (EA text question p.answer false)
          ++ positionsTrace EA text i iid question (j + 1) rest))

/-- The trace of the `for i, issue in enumerate(issues)` loop. -/
def issuesTrace (EP : List Char → List Char → List PositionDict)
    (EA : List Char → List Char → List Char → Bool → List ArgDict)
    (text : List Char) : Nat → List IssueDict → List Event
  | _, [] => []
  | i, iss :: rest =>
    Event.issue (issueId i) iss.question (iss.issue_type.getD ("regular".toList))
        iss.description
      :: (positionsTrace EA text i (issueId i) iss.question 0 (EP text iss.question)
        ++ issuesTrace EP EA text (i + 1) rest)

/-- The full trace of `main`'s extraction loops on the first chunk. -/
def mainTrace (EI : List Char → List IssueDict)
    (EP : List Char → List Char → List PositionDict)
    (EA : List Char → List Char → List Char → Bool → List ArgDict)
    (text : List Char) : List Event :=
  issuesTrace EP EA text 0 (EI text)

/-- The event adds the issue with the given id. -/
def providesIssue (iid : List Char) : Event → Bool
  | Event.issue id _ _ _ => id == iid
  | _ => false

/-- The event adds the position with the given id. -/
def providesPosition (pid : List Char) : Event → Bool
  | Event.position id _ _ _ => id == pid
  | _ => false

/-- The event adds the argument with the given id. -/
def providesArgument (aid : List Char) : Event → Bool
  | Event.argument id _ _ _ => id == aid
  | _ => false

/-- The event's parent reference points at an entity added earlier in the
trace: positions need their issue, arguments their position, evidence its
argument; issues need nothing. -/
def okAt (pre : List Event) : Event → Bool
  | Event.issue _ _ _ _ => true
  | Event.position _ iid _ _ => pre.any (providesIssue iid)
  | Event.argument _ pid _ _ => pre.any (providesPosition pid)
  | Event.evidence _ aid _ _ => pre.any (providesArgument aid)

/-- Every event of the trace only references entities added before it,
given the events `pre` already performed. -/
def closedFrom (pre : List Event) : List Event → Bool
  | [] => true
  | e :: rest => okAt pre e && closedFrom (pre ++ [e]) rest

/-- The event is an `add_argument` call. -/
def isArgumentEvent : Event → Bool
  | Event.argument _ _ _ _ => true
  | _ => false

/-- The event is an `add_evidence` call. -/
def isEvidenceEvent : Event → Bool
  | Event.evidence _ _ _ _ => true
  | _ => false

theorem closedFrom_append (l1 l2 : List Event) : ∀ pre,
    closedFrom pre (l1 ++ l2) = (closedFrom pre l1 && closedFrom (pre ++ l1) l2) := by
  induction l1 with
  | nil => intro pre; simp [closedFrom]
  | cons e t ih =>
    intro pre
    simp only [List.cons_append, closedFrom, List.append_eq]
    rw [ih (pre ++ [e]), Bool.and_assoc, List.append_assoc]
    rfl

theorem any_mono_append {pre : List Event} (ext : List Event) {p : Event → Bool}
    (h : pre.any p = true) : (pre ++ ext).any p = true := by
  rw [List.any_append, h]
  rfl

theorem argsTrace_closed (i j : Nat) (tag pid : List Char) (su : Bool) :
    ∀ (args : List ArgDict) (k : Nat) (pre : List Event),
      pre.any (providesPosition pid) = true →
      closedFrom pre (argsTrace i j tag pid su k args) = true := by
  intro args
  induction args with
  | nil => intro k pre h; rfl
  | cons a rest ih =>
    intro k pre h
    simp only [argsTrace, closedFrom, okAt, Bool.and_eq_true]
    refine ⟨h, ?_⟩
    rw [closedFrom_append, Bool.and_eq_true]
    cases hev : a.evidence with
    | none =>
      refine ⟨rfl, ?_⟩
      simp only [List.append_nil]
      exact ih (k + 1) _ (any_mono_append _ h)
    | some content =>
      constructor
      · simp only [closedFrom, okAt, Bool.and_eq_true]
        refine ⟨?_, trivial⟩
        rw [List.any_append]
        have hself : (List.any [Event.argument (argId i j k tag) pid a.warrant su]
            (providesArgument (argId i j k tag))) = true := by
          simp [providesArgument]
        rw [hself]
        simp
      · exact ih (k + 1) _ (any_mono_append _ (any_mono_append _ h))

theorem positionsTrace_closed (EA : List Char → List Char → List Char → Bool → List ArgDict)
    (text : List Char) (i : Nat) (iid question : List Char) :
    ∀ (ps : List PositionDict) (j : Nat) (pre : List Event),
      pre.any (providesIssue iid) = true →
      closedFrom pre (positionsTrace EA text i iid question j ps) = true := by
  intro ps
  induction ps with
  | nil => intro j pre h; rfl
  | cons p rest ih =>
    intro j pre h
    simp only [positionsTrace, closedFrom, okAt, Bool.and_eq_true]
    refine ⟨h, ?_⟩
    rw [closedFrom_append, Bool.and_eq_true]
    have hpos : ∀ ext : List Event,
        ((pre ++ [Event.position (positionId i j) iid p.answer p.description]) ++ ext).any
          (providesPosition (positionId i j)) = true := by
      intro ext
      apply any_mono_append
      rw [List.any_append]
      have hself : (List.any [Event.position (positionId i j) iid p.answer p.description]
          (providesPosition (positionId i j))) = true := by
        simp [providesPosition]
      rw [hself]
      simp
    constructor
    · apply argsTrace_closed
      simpa using hpos []
    · rw [closedFrom_append, Bool.and_eq_true]
      constructor
      · apply argsTrace_closed
        exact hpos _
      · apply ih (j + 1)
        apply any_mono_append
        apply any_mono_append
        exact any_mono_append _ h

theorem issuesTrace_closed (EP : List Char → List Char → List PositionDict)
    (EA : List Char → List Char → List Char → Bool → List ArgDict) (text : List Char) :
    ∀ (is : List IssueDict) (i : Nat) (pre : List Event),
      closedFrom pre (issuesTrace EP EA text i is) = true := by
  intro is
  induction is with
  | nil => intro i pre; rfl
  | cons iss rest ih =>
    intro i pre
    simp only [issuesTrace, closedFrom, okAt, Bool.true_and]
    rw [closedFrom_append, Bool.and_eq_true]
    constructor
    · apply positionsTrace_closed
      rw [List.any_append]
      have hself : (List.any [Event.issue (issueId i) iss.question
          (iss.issue_type.getD ("regular".toList)) iss.description]
          (providesIssue (issueId i))) = true := by
        simp [providesIssue]
      rw [hself]
      simp
    · exact ih (i + 1) _

theorem argsTrace_counts (i j : Nat) (tag pid : List Char) (su : Bool) :
    ∀ (args : List ArgDict) (k : Nat),
      ((argsTrace i j tag pid su k args).filter isEvidenceEvent).length
        = (args.filter (fun a => a.evidence.isSome)).length ∧
      ((argsTrace i j tag pid su k args).filter isArgumentEvent).length = args.length := by
  intro args
  induction args with
  | nil => intro k; exact ⟨rfl, rfl⟩
  | cons a rest ih =>
    intro k
    cases hev : a.evidence with
    | none =>
      simp only [argsTrace, hev, List.nil_append, List.filter_cons]
      simp [isEvidenceEvent, isArgumentEvent, hev, (ih (k + 1)).1, (ih (k + 1)).2]
    | some content =>
      simp only [argsTrace, hev, List.filter_cons, List.filter_append]
      simp [isEvidenceEvent, isArgumentEvent, hev, (ih (k + 1)).1, (ih (k + 1)).2]

/-- Claim C5: whatever lists the LLM extraction oracles return, the trace of
`add_*` calls performed by `main` follows the HyperIBIS order and is
referentially closed by construction: every position refers to an issue
added earlier in the trace, every argument to a position added earlier,
every evidence record to an argument added earlier, and per argument list
exactly the arguments holding an `evidence` key produce an evidence
record (one argument record each). -/
theorem main_pipeline_closed (EI : List Char → List IssueDict)
    (EP : List Char → List Char → List PositionDict)
    (EA : List Char → List Char → List Char → Bool → List ArgDict)
    (text : List Char) :
    closedFrom [] (mainTrace EI EP EA text) = true ∧
    (∀ i j tag pid su k args,
      ((argsTrace i j tag pid su k args).filter isEvidenceEvent).length
        = (args.filter (fun a : ArgDict => a.evidence.isSome)).length ∧
      ((argsTrace i j tag pid su k args).filter isArgumentEvent).length = args.length) :=
  ⟨issuesTrace_closed EP EA text (EI text) 0 [],
    fun i j tag pid su k args => argsTrace_counts i j tag pid su args k⟩

end Cweb
